import Mathlib

/-!
Verification development for the speech-segment detection and
timeline-alignment engine of the repository.

Embedded source functions (shallow embedding, machine integers as `Nat`
with all durations in whole milliseconds):

* `scripts/vad_preprocess.py`:
  - `VADPreprocessor.detect_speech_segments_webrtc` (the frame-merge loop)
    as `detectLoop` / `detect_speech_segments_webrtc`;
  - the short-candidate filter of `detect_speech_segments_energy`
    as `filterShortSegments`;
  - `VADPreprocessor.split_long_segments` as `splitSeg` /
    `split_long_segments`, with the source's IEEE-754 binary64 float
    arithmetic embedded exactly: a double is a pair `(m, e)` denoting
    `m * 2 ^ e`, and `rnd53pair` is correct rounding to a 53-bit
    significand with ties to even, so `duration / num_chunks`,
    `i * chunk_length` and the `int()` truncations compute precisely what
    CPython computes (overflow and subnormals, unreachable here, are not
    modelled).

* `utils/timestamp_manager.py`:
  - `TimestampManager.create_chunks_timeline` as `create_chunks_timeline`
    (wall-clock datetimes are embedded as milliseconds since an epoch;
    `datetime + timedelta(milliseconds=k)` is exact integer addition);
  - `TimestampManager.align_stt_results_with_timeline` as
    `align_stt_results_with_timeline` (Python dict iteration in insertion
    order is a list of key-value pairs; the dict comprehension building
    `chunk_map` keeps the last entry per key, as `chunkMapFind`;
    the final stable sort by the formatted `absolute_start` string is a
    stable insertion sort on the millisecond value, `sortByStart` --
    lexicographic order on the fixed-width format agrees with numeric
    order);
  - `TimestampManager.query_by_time_range` as `query_by_time_range`
    (the code parses query bounds at one-second granularity and truncates
    each event start to whole seconds before comparing).
-/

namespace Spec2Proof

set_option maxRecDepth 400000

/-! ## Segment detection (`scripts/vad_preprocess.py`) -/

/-- Frame duration hardcoded in `detect_speech_segments_webrtc`
(`frame_duration_ms = 30`). -/
def frameMs : Nat := 30

/-- The frame-merge loop of `VADPreprocessor.detect_speech_segments_webrtc`
(lines 169-195): state is the current frame index and the Python variable
`start_frame` (`None` encoded as `none`).  A speech frame in silence opens a
run; the first non-speech frame closes it at the current index, keeping it
only when its duration reaches the speech-duration floor; a run still open
at the end of the stream is flushed at the total frame count. -/
def detectLoop (minSpeechMs : Nat) : List Bool → Nat → Option Nat → List (Nat × Nat)
  | [], _, none => []
  | [], i, some s =>
      if minSpeechMs ≤ i * frameMs - s * frameMs then [(s * frameMs, i * frameMs)] else []
  | b :: rest, i, none =>
      if b then detectLoop minSpeechMs rest (i + 1) (some i)
      else detectLoop minSpeechMs rest (i + 1) none
  | b :: rest, i, some s =>
      if b then detectLoop minSpeechMs rest (i + 1) (some s)
      else
        (if minSpeechMs ≤ i * frameMs - s * frameMs then [(s * frameMs, i * frameMs)] else [])
          ++ detectLoop minSpeechMs rest (i + 1) none

/-- `VADPreprocessor.detect_speech_segments_webrtc` applied to a stream of
frame decisions, returning `(start_ms, end_ms)` pairs. -/
def detect_speech_segments_webrtc (minSpeechMs : Nat) (frames : List Bool) :
    List (Nat × Nat) :=
  detectLoop minSpeechMs frames 0 none

/-- The candidate filter of `VADPreprocessor.detect_speech_segments_energy`
(lines 127-132): keep a candidate interval exactly when its duration reaches
`min_speech_ms`. -/
def filterShortSegments (minSpeechMs : Nat) (segs : List (Nat × Nat)) :
    List (Nat × Nat) :=
  segs.filter (fun p => minSpeechMs ≤ p.2 - p.1)

/-! ### IEEE binary64 model

`split_long_segments` does its cut-point arithmetic in Python floats
(IEEE-754 binary64).  A nonnegative double is represented as a pair
`(m, e) : Nat × ℤ` denoting the exact rational `m * 2 ^ e`; `rnd53pair`
is correct rounding of a fraction to a 53-bit significand with ties to
even, which is the binary64 rounding of every value in the normal range
(overflow and subnormals are unreachable for the quantities of this
pipeline and are not modelled). -/

/-- Integer division rounded to nearest, ties to even. -/
def rndDiv (n d : Nat) : Nat :=
  if 2 * (n % d) < d then n / d
  else if d < 2 * (n % d) then n / d + 1
  else if n / d % 2 = 0 then n / d else n / d + 1

/-- Floor of the binary logarithm, by fuelled halving (structural recursion
so that kernel evaluation on literals is cheap). -/
def log2fuel : Nat → Nat → Nat
  | 0, _ => 0
  | fuel + 1, n => if n ≤ 1 then 0 else log2fuel fuel (n / 2) + 1

/-- `nlog2 n = ⌊log2 n⌋` for `n ≥ 1`. -/
def nlog2 (n : Nat) : Nat := log2fuel n n

/-- Decides `p / q < 2 ^ t` over the rationals by integer comparisons. -/
def qlt (p q : Nat) (t : ℤ) : Bool :=
  if 0 ≤ t then p < q * 2 ^ t.toNat else p * 2 ^ (-t).toNat < q

/-- The binary exponent of `p / q`: the `e` with `2 ^ e ≤ p / q < 2 ^ (e+1)`. -/
def eOf (p q : Nat) : ℤ :=
  if qlt p q ((nlog2 p : ℤ) - (nlog2 q : ℤ)) then (nlog2 p : ℤ) - (nlog2 q : ℤ) - 1
  else (nlog2 p : ℤ) - (nlog2 q : ℤ)

/-- Correct binary64 rounding of the fraction `p / q`: scale the fraction
into `[2^52, 2^53)`, round to an integer significand with ties to even, and
record the scale. -/
def rnd53pair (p q : Nat) : Nat × ℤ :=
  if p = 0 ∨ q = 0 then (0, 0)
  else if 0 ≤ 52 - eOf p q then (rndDiv (p * 2 ^ (52 - eOf p q).toNat) q, eOf p q - 52)
  else (rndDiv p (q * 2 ^ (eOf p q - 52).toNat), eOf p q - 52)

/-- The exact rational denoted by a double. -/
def val (x : Nat × ℤ) : ℚ := (x.1 : ℚ) * 2 ^ x.2

/-- Conversion of a Python `int` to a double (exact below `2^53`). -/
def fofNat (a : Nat) : Nat × ℤ := rnd53pair a 1

/-- CPython `int / int` true division: the correctly rounded double of the
exact quotient. -/
def fdiv (a b : Nat) : Nat × ℤ := rnd53pair a b

/-- Python `int * float`: the `int` is converted to a double, then the
exact product is rounded. -/
def fmul (a : Nat) (x : Nat × ℤ) : Nat × ℤ :=
  if 0 ≤ (fofNat a).2 + x.2 then
    rnd53pair ((fofNat a).1 * x.1 * 2 ^ ((fofNat a).2 + x.2).toNat) 1
  else rnd53pair ((fofNat a).1 * x.1) (2 ^ (-((fofNat a).2 + x.2)).toNat)

/-- Python `int(v)` on a nonnegative double: truncation, here a floor. -/
def ffloor (x : Nat × ℤ) : Nat :=
  if 0 ≤ x.2 then x.1 * 2 ^ x.2.toNat else x.1 / 2 ^ (-x.2).toNat

/-- `int(np.ceil(v))` on a nonnegative double. -/
def fceil (x : Nat × ℤ) : Nat :=
  if 0 ≤ x.2 then x.1 * 2 ^ x.2.toNat
  else (x.1 + 2 ^ (-x.2).toNat - 1) / 2 ^ (-x.2).toNat

/-- `num_chunks = int(np.ceil(duration / max_length_ms))`: float division,
then an exact ceiling and an exact conversion back to `int`. -/
def numChunks (maxLengthMs d : Nat) : Nat := fceil (fdiv d maxLengthMs)

/-- One cut point `int(i * chunk_length)` where
`chunk_length = duration / num_chunks` is a double: float division, float
product, truncation toward zero. -/
def cut (d n i : Nat) : Nat := ffloor (fmul i (fdiv d n))

/-- `VADPreprocessor.split_long_segments` on a single `(start_ms, end_ms)`
interval, with the source's float arithmetic: an interval within the
ceiling passes through; a longer one is cut at the points
`start + int(i * (duration / num_chunks))`. -/
def splitSeg (maxLengthMs : Nat) (seg : Nat × Nat) : List (Nat × Nat) :=
  let d := seg.2 - seg.1
  if d ≤ maxLengthMs then [seg]
  else
    (List.range (numChunks maxLengthMs d)).map (fun i =>
      (seg.1 + cut d (numChunks maxLengthMs d) i,
       seg.1 + cut d (numChunks maxLengthMs d) (i + 1)))

/-- `VADPreprocessor.split_long_segments` (lines 233-266) over the whole
segment list, concatenating the per-segment results in order. -/
def split_long_segments (maxLengthMs : Nat) (segs : List (Nat × Nat)) :
    List (Nat × Nat) :=
  segs.flatMap (splitSeg maxLengthMs)

/-! ### Correctness of the binary64 model -/

lemma log2fuel_spec : ∀ (fuel n : Nat), 1 ≤ n → n ≤ fuel →
    2 ^ log2fuel fuel n ≤ n ∧ n < 2 ^ (log2fuel fuel n + 1) := by
  intro fuel
  induction fuel with
  | zero => intro n h1 h2; omega
  | succ f ih =>
      intro n h1 h2
      by_cases hle : n ≤ 1
      · have hn1 : n = 1 := by omega
        subst hn1
        simp [log2fuel]
      · rw [log2fuel, if_neg hle]
        obtain ⟨ha, hb⟩ := ih (n / 2) (by omega) (by omega)
        have e1 : 2 ^ (log2fuel f (n / 2) + 1) = 2 ^ log2fuel f (n / 2) * 2 :=
          pow_succ 2 _
        have e2 : 2 ^ (log2fuel f (n / 2) + 1 + 1) = 2 ^ (log2fuel f (n / 2) + 1) * 2 :=
          pow_succ 2 _
        omega

lemma nlog2_spec {n : Nat} (h : 1 ≤ n) : 2 ^ nlog2 n ≤ n ∧ n < 2 ^ (nlog2 n + 1) :=
  log2fuel_spec n n h le_rfl

lemma rndDiv_err {n d : Nat} (hd : 0 < d) :
    |((rndDiv n d : ℕ) : ℚ) - (n : ℚ) / d| ≤ 1 / 2 := by
  have hdq : (0:ℚ) < (d:ℚ) := by exact_mod_cast hd
  have hdm : (d:ℚ) * ((n / d : ℕ) : ℚ) + ((n % d : ℕ) : ℚ) = (n:ℚ) := by
    exact_mod_cast Nat.div_add_mod n d
  have hx : (n:ℚ) / d = ((n / d : ℕ) : ℚ) + ((n % d : ℕ) : ℚ) / d := by
    field_simp
    linarith [hdm, mul_comm (d:ℚ) ((n / d : ℕ) : ℚ)]
  have hr0 : (0:ℚ) ≤ ((n % d : ℕ) : ℚ) := by positivity
  have hrd0 : (0:ℚ) ≤ ((n % d : ℕ) : ℚ) / d := by positivity
  rw [rndDiv]
  split_ifs with h1 h2 h3
  · have hrq : (2:ℚ) * ((n % d : ℕ) : ℚ) < (d:ℚ) := by exact_mod_cast h1
    have hdd : ((n % d : ℕ) : ℚ) / d < 1 / 2 := by
      rw [div_lt_div_iff hdq (by norm_num)]
      linarith
    rw [hx, abs_sub_le_iff]
    constructor <;> linarith
  · have hrq : (d:ℚ) < 2 * ((n % d : ℕ) : ℚ) := by exact_mod_cast h2
    have hd1 : ((n % d : ℕ) : ℚ) / d ≤ 1 := by
      rw [div_le_one hdq]
      exact_mod_cast (Nat.mod_lt n hd).le
    have hdd : (1:ℚ) / 2 < ((n % d : ℕ) : ℚ) / d := by
      rw [div_lt_div_iff (by norm_num) hdq]
      linarith
    rw [hx]
    push_cast
    rw [abs_sub_le_iff]
    constructor <;> linarith
  · have heq : 2 * (n % d) = d := by omega
    have hrq : (2:ℚ) * ((n % d : ℕ) : ℚ) = (d:ℚ) := by exact_mod_cast heq
    have hdd : ((n % d : ℕ) : ℚ) / d = 1 / 2 := by
      rw [div_eq_div_iff (ne_of_gt hdq) (by norm_num : (2:ℚ) ≠ 0)]
      linarith
    rw [hx, abs_sub_le_iff]
    constructor <;> linarith
  · have heq : 2 * (n % d) = d := by omega
    have hrq : (2:ℚ) * ((n % d : ℕ) : ℚ) = (d:ℚ) := by exact_mod_cast heq
    have hdd : ((n % d : ℕ) : ℚ) / d = 1 / 2 := by
      rw [div_eq_div_iff (ne_of_gt hdq) (by norm_num : (2:ℚ) ≠ 0)]
      linarith
    rw [hx]
    push_cast
    rw [abs_sub_le_iff]
    constructor <;> linarith

lemma rndDiv_one (n : Nat) : rndDiv n 1 = n := by
  simp [rndDiv, Nat.mod_one, Nat.div_one]

lemma qlt_iff {p q : Nat} (hq : 0 < q) (t : ℤ) :
    qlt p q t = true ↔ (p:ℚ) / q < 2 ^ t := by
  have hdq : (0:ℚ) < (q:ℚ) := by exact_mod_cast hq
  rw [qlt]
  split_ifs with ht
  · rw [decide_eq_true_iff]
    rw [div_lt_iff hdq]
    rw [show (2:ℚ) ^ t * q = ((q * 2 ^ t.toNat : ℕ) : ℚ) by
      push_cast
      rw [← zpow_natCast (2:ℚ) t.toNat, Int.toNat_of_nonneg ht]
      ring]
    exact ⟨fun h => by exact_mod_cast h, fun h => by exact_mod_cast h⟩
  · push_neg at ht
    rw [decide_eq_true_iff]
    have h2t : (2:ℚ) ^ t = 1 / ((2 ^ (-t).toNat : ℕ) : ℚ) := by
      push_cast
      rw [← zpow_natCast (2:ℚ) (-t).toNat, Int.toNat_of_nonneg (by omega : (0:ℤ) ≤ -t)]
      rw [one_div, ← zpow_neg]
      congr 1
      omega
    rw [h2t, div_lt_div_iff hdq (by positivity)]
    rw [show (p:ℚ) * ((2 ^ (-t).toNat : ℕ) : ℚ) = ((p * 2 ^ (-t).toNat : ℕ) : ℚ) by push_cast; ring]
    rw [one_mul]
    exact ⟨fun h => by exact_mod_cast h, fun h => by exact_mod_cast h⟩

lemma eOf_le {p q : Nat} (hp : 0 < p) (hq : 0 < q) : (2:ℚ) ^ eOf p q ≤ (p:ℚ) / q := by
  have hdq : (0:ℚ) < (q:ℚ) := by exact_mod_cast hq
  obtain ⟨hp1, _⟩ := nlog2_spec hp
  obtain ⟨_, hq2⟩ := nlog2_spec hq
  rw [eOf]
  split_ifs with hcond
  · have hple : ((2 ^ nlog2 p : ℕ) : ℚ) ≤ (p:ℚ) := by exact_mod_cast hp1
    have hqlt : (q:ℚ) ≤ ((2 ^ (nlog2 q + 1) : ℕ) : ℚ) := by exact_mod_cast hq2.le
    have key : (2:ℚ) ^ ((nlog2 p : ℤ) - (nlog2 q : ℤ) - 1)
        = ((2 ^ nlog2 p : ℕ) : ℚ) / ((2 ^ (nlog2 q + 1) : ℕ) : ℚ) := by
      push_cast
      rw [← zpow_natCast (2:ℚ) (nlog2 p), ← zpow_natCast (2:ℚ) (nlog2 q + 1),
        ← zpow_sub₀ (by norm_num : (2:ℚ) ≠ 0)]
      congr 1
      push_cast
      ring
    rw [key]
    exact div_le_div (by positivity) hple hdq hqlt
  · have hh : ¬ ((p:ℚ) / q < 2 ^ ((nlog2 p : ℤ) - (nlog2 q : ℤ))) := by
      rw [← qlt_iff hq]
      simpa using hcond
    exact not_lt.mp hh

lemma rnd53pair_err {p q : Nat} (hp : 0 < p) (hq : 0 < q) :
    |val (rnd53pair p q) - (p:ℚ) / q| ≤ ((p:ℚ) / q) / 2 ^ 53 := by
  have h2ne : (2:ℚ) ≠ 0 := by norm_num
  have h2pos : (0:ℚ) < 2 := by norm_num
  have hdq : (0:ℚ) < (q:ℚ) := by exact_mod_cast hq
  have hscale := eOf_le hp hq
  rw [rnd53pair, if_neg (by rintro (h | h) <;> omega)]
  have hfinal : ∀ R : ℚ, |R - ((p:ℚ)/q) * 2 ^ (52 - eOf p q)| ≤ 1/2 →
      |R * 2 ^ (eOf p q - 52 : ℤ) - (p:ℚ)/q| ≤ ((p:ℚ)/q) / 2 ^ 53 := by
    intro R hR
    have hsub : R * 2 ^ (eOf p q - 52 : ℤ) - (p:ℚ)/q
        = (R - ((p:ℚ)/q) * 2 ^ (52 - eOf p q)) * 2 ^ (eOf p q - 52 : ℤ) := by
      rw [sub_mul, mul_assoc, ← zpow_add₀ h2ne,
        show (52 - eOf p q) + (eOf p q - 52) = (0:ℤ) by ring, zpow_zero, mul_one]
    calc |R * 2 ^ (eOf p q - 52 : ℤ) - (p:ℚ)/q|
        = |R - ((p:ℚ)/q) * 2 ^ (52 - eOf p q)| * 2 ^ (eOf p q - 52 : ℤ) := by
          rw [hsub, abs_mul, abs_of_pos (zpow_pos h2pos _)]
      _ ≤ (1/2) * 2 ^ (eOf p q - 52 : ℤ) :=
          mul_le_mul_of_nonneg_right hR (le_of_lt (zpow_pos h2pos _))
      _ = 2 ^ (eOf p q - 53 : ℤ) := by
          rw [show (eOf p q - 53 : ℤ) = (-1) + (eOf p q - 52) by ring,
            zpow_add₀ h2ne, zpow_neg, zpow_one]
          ring
      _ ≤ ((p:ℚ)/q) * 2 ^ (-53 : ℤ) := by
          rw [show (eOf p q - 53 : ℤ) = eOf p q + (-53) by ring, zpow_add₀ h2ne]
          exact mul_le_mul_of_nonneg_right hscale (le_of_lt (zpow_pos h2pos _))
      _ = ((p:ℚ)/q) / 2 ^ 53 := by
          rw [show (-53 : ℤ) = -((53:ℕ):ℤ) by norm_num, zpow_neg, zpow_natCast]
          ring
  split_ifs with hk
  · have hKe : (((52 - eOf p q).toNat : ℕ) : ℤ) = 52 - eOf p q := Int.toNat_of_nonneg hk
    have hy : (((p * 2 ^ (52 - eOf p q).toNat : ℕ)) : ℚ) / q
        = ((p:ℚ)/q) * 2 ^ (52 - eOf p q) := by
      push_cast
      rw [← zpow_natCast (2:ℚ) (52 - eOf p q).toNat, hKe]
      ring
    have herr := rndDiv_err (n := p * 2 ^ (52 - eOf p q).toNat) hq
    rw [hy] at herr
    exact hfinal _ herr
  · push_neg at hk
    set J := (eOf p q - 52).toNat with hJdef
    have hJe : ((J : ℕ) : ℤ) = eOf p q - 52 := Int.toNat_of_nonneg (by omega)
    have hq2 : 0 < q * 2 ^ J := by positivity
    have h52 : (2:ℚ) ^ (52 - eOf p q : ℤ) = ((2:ℚ) ^ J)⁻¹ := by
      rw [show (52 - eOf p q : ℤ) = -(eOf p q - 52) by ring, ← hJe, zpow_neg,
        zpow_natCast]
    have hy : ((p : ℕ) : ℚ) / ((q * 2 ^ J : ℕ) : ℚ)
        = ((p:ℚ)/q) * 2 ^ (52 - eOf p q) := by
      rw [h52]
      push_cast
      rw [div_mul_eq_div_div, div_eq_mul_inv ((p:ℚ)/q)]
    have herr := rndDiv_err (n := p) hq2
    rw [hy] at herr
    exact hfinal _ herr

lemma rnd53pair_bounds {p q : Nat} (hp : 0 < p) (hq : 0 < q) :
    (p:ℚ)/q - ((p:ℚ)/q) / 2 ^ 53 ≤ val (rnd53pair p q)
      ∧ val (rnd53pair p q) ≤ (p:ℚ)/q + ((p:ℚ)/q) / 2 ^ 53 := by
  have h := abs_sub_le_iff.mp (rnd53pair_err hp hq)
  constructor <;> linarith [h.1, h.2]

lemma rnd53pair_val_pos {p q : Nat} (hp : 0 < p) (hq : 0 < q) :
    0 < val (rnd53pair p q) := by
  have hx : (0:ℚ) < (p:ℚ)/q := by positivity
  have hlt : ((p:ℚ)/q) / 2 ^ 53 < (p:ℚ)/q := div_lt_self hx (by norm_num)
  linarith [(rnd53pair_bounds hp hq).1]

lemma mantissa_pos {x : Nat × ℤ} (h : 0 < val x) : 0 < x.1 := by
  by_contra h0
  push_neg at h0
  have hz : x.1 = 0 := by omega
  rw [val, hz] at h
  simp at h

lemma val_nonneg (x : Nat × ℤ) : 0 ≤ val x := by
  rw [val]
  positivity

lemma rnd53pair_natCast {a : Nat} (ha0 : 0 < a) (ha : (a:ℚ) < 2 ^ 53) :
    val (rnd53pair a 1) = a := by
  have h2ne : (2:ℚ) ≠ 0 := by norm_num
  have hscale := eOf_le ha0 (by norm_num : 0 < 1)
  rw [Nat.cast_one, div_one] at hscale
  have he52 : eOf a 1 ≤ 52 := by
    by_contra hgt
    push_neg at hgt
    have h1 : (2:ℚ) ^ (53 : ℤ) ≤ 2 ^ eOf a 1 := by
      apply zpow_le_zpow_right₀ (by norm_num : (1:ℚ) ≤ 2)
      omega
    have h2 : (2:ℚ) ^ (53 : ℤ) = 2 ^ (53 : ℕ) := by
      rw [← zpow_natCast]
      norm_num
    linarith
  rw [rnd53pair, if_neg (by rintro (h | h) <;> omega),
    if_pos (by omega : (0:ℤ) ≤ 52 - eOf a 1)]
  rw [rndDiv_one]
  show ((a * 2 ^ (52 - eOf a 1).toNat : ℕ) : ℚ) * 2 ^ (eOf a 1 - 52 : ℤ) = a
  push_cast
  rw [← zpow_natCast (2:ℚ) (52 - eOf a 1).toNat,
    Int.toNat_of_nonneg (by omega : (0:ℤ) ≤ 52 - eOf a 1)]
  rw [mul_assoc, ← zpow_add₀ h2ne,
    show (52 - eOf a 1) + (eOf a 1 - 52) = (0:ℤ) by ring, zpow_zero, mul_one]

lemma fofNat_val {a : Nat} (ha0 : 0 < a) (ha : (a:ℚ) < 2 ^ 53) :
    val (fofNat a) = a :=
  rnd53pair_natCast ha0 ha

lemma fmul_zero_val (x : Nat × ℤ) : val (fmul 0 x) = 0 := by
  have h0 : fofNat 0 = (0, 0) := by simp [fofNat, rnd53pair]
  rw [fmul, h0]
  simp [rnd53pair, val]

lemma fmul_err {a : Nat} {x : Nat × ℤ} (ha : 0 < a) (halt : (a:ℚ) < 2 ^ 53)
    (hx : 0 < x.1) :
    |val (fmul a x) - (a:ℚ) * val x| ≤ ((a:ℚ) * val x) / 2 ^ 53 := by
  have h2ne : (2:ℚ) ≠ 0 := by norm_num
  have hfa : val (fofNat a) = a := rnd53pair_natCast ha halt
  have hapos : (0:ℚ) < (a:ℚ) := by exact_mod_cast ha
  have hfa1 : 0 < (fofNat a).1 := mantissa_pos (by rw [hfa]; exact hapos)
  rw [fmul]
  split_ifs with hE
  · have hEe : ((((fofNat a).2 + x.2).toNat : ℕ) : ℤ) = (fofNat a).2 + x.2 :=
      Int.toNat_of_nonneg hE
    have hP : 0 < (fofNat a).1 * x.1 * 2 ^ ((fofNat a).2 + x.2).toNat := by positivity
    have herr := rnd53pair_err hP (by norm_num : (0:ℕ) < 1)
    have hident : (((fofNat a).1 * x.1 * 2 ^ ((fofNat a).2 + x.2).toNat : ℕ) : ℚ)
        / ((1 : ℕ) : ℚ) = (a:ℚ) * val x := by
      rw [Nat.cast_one, div_one, ← hfa]
      show _ = val (fofNat a) * val x
      rw [val, val]
      push_cast
      rw [← zpow_natCast (2:ℚ) ((fofNat a).2 + x.2).toNat, hEe, zpow_add₀ h2ne]
      ring
    rw [hident] at herr
    exact herr
  · push_neg at hE
    have hJe : (((-((fofNat a).2 + x.2)).toNat : ℕ) : ℤ) = -((fofNat a).2 + x.2) :=
      Int.toNat_of_nonneg (by omega)
    have hP : 0 < (fofNat a).1 * x.1 := by positivity
    have hQ : (0:ℕ) < 2 ^ (-((fofNat a).2 + x.2)).toNat := by positivity
    have herr := rnd53pair_err hP hQ
    have hident : (((fofNat a).1 * x.1 : ℕ) : ℚ)
        / ((2 ^ (-((fofNat a).2 + x.2)).toNat : ℕ) : ℚ) = (a:ℚ) * val x := by
      rw [← hfa]
      show _ = val (fofNat a) * val x
      rw [val, val]
      push_cast
      rw [div_eq_mul_inv, ← zpow_natCast (2:ℚ) (-((fofNat a).2 + x.2)).toNat, hJe,
        ← zpow_neg, neg_neg, zpow_add₀ h2ne]
      ring
    rw [hident] at herr
    exact herr

lemma fmul_bounds {a : Nat} {x : Nat × ℤ} (ha : 0 < a) (halt : (a:ℚ) < 2 ^ 53)
    (hx : 0 < x.1) :
    (a:ℚ) * val x - ((a:ℚ) * val x) / 2 ^ 53 ≤ val (fmul a x)
      ∧ val (fmul a x) ≤ (a:ℚ) * val x + ((a:ℚ) * val x) / 2 ^ 53 := by
  have h := abs_sub_le_iff.mp (fmul_err ha halt hx)
  constructor <;> linarith [h.1, h.2]

lemma ffloor_le (x : Nat × ℤ) : ((ffloor x : ℕ) : ℚ) ≤ val x := by
  rw [ffloor, val]
  split_ifs with h
  · push_cast
    rw [← zpow_natCast (2:ℚ) x.2.toNat, Int.toNat_of_nonneg h]
  · push_neg at h
    have hJe : (((-x.2).toNat : ℕ) : ℤ) = -x.2 := Int.toNat_of_nonneg (by omega)
    calc ((x.1 / 2 ^ (-x.2).toNat : ℕ) : ℚ)
        ≤ (x.1 : ℚ) / ((2 ^ (-x.2).toNat : ℕ) : ℚ) := Nat.cast_div_le
      _ = (x.1 : ℚ) * 2 ^ x.2 := by
          rw [div_eq_mul_inv]
          congr 1
          push_cast
          rw [← zpow_natCast (2:ℚ) (-x.2).toNat, hJe, ← zpow_neg, neg_neg]

lemma lt_ffloor_add_one (x : Nat × ℤ) : val x < ((ffloor x : ℕ) : ℚ) + 1 := by
  rw [ffloor, val]
  split_ifs with h
  · have : ((x.1 * 2 ^ x.2.toNat : ℕ) : ℚ) = (x.1 : ℚ) * 2 ^ x.2 := by
      push_cast
      rw [← zpow_natCast (2:ℚ) x.2.toNat, Int.toNat_of_nonneg h]
    rw [this]
    linarith
  · push_neg at h
    have hJe : (((-x.2).toNat : ℕ) : ℤ) = -x.2 := Int.toNat_of_nonneg (by omega)
    have hpow : (0:ℚ) < ((2 ^ (-x.2).toNat : ℕ) : ℚ) := by positivity
    have hvx : (x.1 : ℚ) * 2 ^ x.2 = (x.1 : ℚ) / ((2 ^ (-x.2).toNat : ℕ) : ℚ) := by
      rw [div_eq_mul_inv]
      congr 1
      push_cast
      rw [← zpow_natCast (2:ℚ) (-x.2).toNat, hJe, ← zpow_neg, neg_neg]
    rw [hvx, div_lt_iff hpow]
    have hnat : x.1 < (x.1 / 2 ^ (-x.2).toNat + 1) * 2 ^ (-x.2).toNat := by
      have h1 := Nat.div_add_mod x.1 (2 ^ (-x.2).toNat)
      have h2 : x.1 % 2 ^ (-x.2).toNat < 2 ^ (-x.2).toNat :=
        Nat.mod_lt x.1 (Nat.pow_pos (by norm_num))
      have h3 : (x.1 / 2 ^ (-x.2).toNat + 1) * 2 ^ (-x.2).toNat
          = 2 ^ (-x.2).toNat * (x.1 / 2 ^ (-x.2).toNat) + 2 ^ (-x.2).toNat := by ring
      omega
    calc (x.1 : ℚ) < (((x.1 / 2 ^ (-x.2).toNat + 1) * 2 ^ (-x.2).toNat : ℕ) : ℚ) := by
          exact_mod_cast hnat
      _ = (((x.1 / 2 ^ (-x.2).toNat : ℕ) : ℚ) + 1) * ((2 ^ (-x.2).toNat : ℕ) : ℚ) := by
          push_cast
          ring

lemma le_fceil (x : Nat × ℤ) : val x ≤ ((fceil x : ℕ) : ℚ) := by
  rw [fceil, val]
  split_ifs with h
  · have : ((x.1 * 2 ^ x.2.toNat : ℕ) : ℚ) = (x.1 : ℚ) * 2 ^ x.2 := by
      push_cast
      rw [← zpow_natCast (2:ℚ) x.2.toNat, Int.toNat_of_nonneg h]
    rw [this]
  · push_neg at h
    have hJe : (((-x.2).toNat : ℕ) : ℤ) = -x.2 := Int.toNat_of_nonneg (by omega)
    have hpow : (0:ℚ) < ((2 ^ (-x.2).toNat : ℕ) : ℚ) := by positivity
    have hvx : (x.1 : ℚ) * 2 ^ x.2 = (x.1 : ℚ) / ((2 ^ (-x.2).toNat : ℕ) : ℚ) := by
      rw [div_eq_mul_inv]
      congr 1
      push_cast
      rw [← zpow_natCast (2:ℚ) (-x.2).toNat, hJe, ← zpow_neg, neg_neg]
    rw [hvx, div_le_iff hpow]
    have hnat : x.1 ≤ (x.1 + 2 ^ (-x.2).toNat - 1) / 2 ^ (-x.2).toNat * 2 ^ (-x.2).toNat := by
      have hD : 0 < 2 ^ (-x.2).toNat := by positivity
      have h1 := Nat.div_add_mod (x.1 + 2 ^ (-x.2).toNat - 1) (2 ^ (-x.2).toNat)
      have h2 : (x.1 + 2 ^ (-x.2).toNat - 1) % 2 ^ (-x.2).toNat < 2 ^ (-x.2).toNat :=
        Nat.mod_lt _ hD
      have h3 : (x.1 + 2 ^ (-x.2).toNat - 1) / 2 ^ (-x.2).toNat * 2 ^ (-x.2).toNat
          = 2 ^ (-x.2).toNat * ((x.1 + 2 ^ (-x.2).toNat - 1) / 2 ^ (-x.2).toNat) := by
        ring
      omega
    calc (x.1 : ℚ)
        ≤ (((x.1 + 2 ^ (-x.2).toNat - 1) / 2 ^ (-x.2).toNat * 2 ^ (-x.2).toNat : ℕ) : ℚ) := by
          exact_mod_cast hnat
      _ = (((x.1 + 2 ^ (-x.2).toNat - 1) / 2 ^ (-x.2).toNat : ℕ) : ℚ)
            * ((2 ^ (-x.2).toNat : ℕ) : ℚ) := by push_cast; ring

lemma fceil_lt (x : Nat × ℤ) : ((fceil x : ℕ) : ℚ) < val x + 1 := by
  rw [fceil, val]
  split_ifs with h
  · have : ((x.1 * 2 ^ x.2.toNat : ℕ) : ℚ) = (x.1 : ℚ) * 2 ^ x.2 := by
      push_cast
      rw [← zpow_natCast (2:ℚ) x.2.toNat, Int.toNat_of_nonneg h]
    rw [this]
    linarith
  · push_neg at h
    have hJe : (((-x.2).toNat : ℕ) : ℤ) = -x.2 := Int.toNat_of_nonneg (by omega)
    have hpow : (0:ℚ) < ((2 ^ (-x.2).toNat : ℕ) : ℚ) := by positivity
    have hvx : (x.1 : ℚ) * 2 ^ x.2 = (x.1 : ℚ) / ((2 ^ (-x.2).toNat : ℕ) : ℚ) := by
      rw [div_eq_mul_inv]
      congr 1
      push_cast
      rw [← zpow_natCast (2:ℚ) (-x.2).toNat, hJe, ← zpow_neg, neg_neg]
    have hnat : (x.1 + 2 ^ (-x.2).toNat - 1) / 2 ^ (-x.2).toNat * 2 ^ (-x.2).toNat
        < x.1 + 2 ^ (-x.2).toNat := by
      have hD : 0 < 2 ^ (-x.2).toNat := by positivity
      have h1 := Nat.div_mul_le_self (x.1 + 2 ^ (-x.2).toNat - 1) (2 ^ (-x.2).toNat)
      omega
    have hq : (((x.1 + 2 ^ (-x.2).toNat - 1) / 2 ^ (-x.2).toNat : ℕ) : ℚ)
        * ((2 ^ (-x.2).toNat : ℕ) : ℚ) < (x.1 : ℚ) + ((2 ^ (-x.2).toNat : ℕ) : ℚ) := by
      calc (((x.1 + 2 ^ (-x.2).toNat - 1) / 2 ^ (-x.2).toNat : ℕ) : ℚ)
            * ((2 ^ (-x.2).toNat : ℕ) : ℚ)
          = (((x.1 + 2 ^ (-x.2).toNat - 1) / 2 ^ (-x.2).toNat * 2 ^ (-x.2).toNat : ℕ) : ℚ) := by
            push_cast; ring
        _ < ((x.1 + 2 ^ (-x.2).toNat : ℕ) : ℚ) := by exact_mod_cast hnat
        _ = (x.1 : ℚ) + ((2 ^ (-x.2).toNat : ℕ) : ℚ) := by push_cast; ring
    rw [hvx]
    rw [show (x.1 : ℚ) / ((2 ^ (-x.2).toNat : ℕ) : ℚ) + 1
        = ((x.1 : ℚ) + ((2 ^ (-x.2).toNat : ℕ) : ℚ)) / ((2 ^ (-x.2).toNat : ℕ) : ℚ) by
      field_simp]
    rw [lt_div_iff hpow]
    exact hq

lemma fceil_pos {x : Nat × ℤ} (h : 0 < val x) : 0 < fceil x := by
  by_contra h0
  push_neg at h0
  have hz : fceil x = 0 := by omega
  have hle := le_fceil x
  rw [hz] at hle
  simp at hle
  linarith

/-- Structure of the float-computed cut points: when the ceiling is at least
5 ms and the duration fits a physical session (at most `2 ^ 40` ms), the cut
sequence starts at 0, is strictly increasing, and never exceeds the
duration.  The error analysis uses the relative-error bound `2 ^ (-53)` of
each binary64 operation. -/
lemma cut_facts {maxv d : Nat} (hmax : 5 ≤ maxv) (hd : maxv < d) (hdle : d ≤ 2 ^ 40) :
    0 < numChunks maxv d
    ∧ cut d (numChunks maxv d) 0 = 0
    ∧ (∀ i, i < numChunks maxv d →
        cut d (numChunks maxv d) i < cut d (numChunks maxv d) (i + 1))
    ∧ (∀ j, j ≤ numChunks maxv d → cut d (numChunks maxv d) j ≤ d) := by
  have hdpos : 0 < d := by omega
  have hmpos : 0 < maxv := by omega
  have hdq : (0:ℚ) < d := by exact_mod_cast hdpos
  have hmq : (0:ℚ) < maxv := by exact_mod_cast hmpos
  have hmq5 : (5:ℚ) ≤ maxv := by exact_mod_cast hmax
  have hdleq : (d:ℚ) ≤ 2 ^ 40 := by exact_mod_cast hdle
  have hmd1 : (maxv:ℚ) + 1 ≤ d := by exact_mod_cast hd
  have hNpos : 0 < numChunks maxv d := fceil_pos (rnd53pair_val_pos hdpos hmpos)
  have hNq : (0:ℚ) < (numChunks maxv d : ℚ) := by exact_mod_cast hNpos
  have hNne : ((numChunks maxv d : ℚ)) ≠ 0 := ne_of_gt hNq
  have hRup : val (fdiv d maxv) ≤ (d:ℚ)/maxv + ((d:ℚ)/maxv)/2^53 :=
    (rnd53pair_bounds hdpos hmpos).2
  have hNle : ((numChunks maxv d : ℚ)) < val (fdiv d maxv) + 1 := fceil_lt (fdiv d maxv)
  have hNM : (numChunks maxv d : ℚ) * maxv < 2 * d := by
    have h1 := mul_lt_mul_of_pos_right hNle hmq
    have h2 : val (fdiv d maxv) * maxv ≤ ((d:ℚ)/maxv + ((d:ℚ)/maxv)/2^53) * maxv :=
      mul_le_mul_of_nonneg_right hRup (le_of_lt hmq)
    have h3 : ((d:ℚ)/maxv + ((d:ℚ)/maxv)/2^53) * maxv = d + (d:ℚ)/2^53 := by
      field_simp
      ring
    have h4 : (val (fdiv d maxv) + 1) * maxv = val (fdiv d maxv) * maxv + maxv := by ring
    have h5 : (d:ℚ)/2^53 < 1 := by
      rw [div_lt_one (by positivity : (0:ℚ) < 2^53)]
      have h6 : (2:ℚ)^40 < 2^53 := by norm_num
      linarith
    linarith [h1, h2, h3.le, h3.ge, h4.le, h4.ge, h5, hmd1]
  have hDN : (maxv:ℚ)/2 ≤ (d:ℚ)/(numChunks maxv d : ℚ) := by
    rw [div_le_div_iff (by norm_num) hNq]
    nlinarith [hNM]
  have hQlow : (d:ℚ)/(numChunks maxv d : ℚ) - ((d:ℚ)/(numChunks maxv d : ℚ))/2^53
      ≤ val (fdiv d (numChunks maxv d)) := (rnd53pair_bounds hdpos hNpos).1
  have hQup : val (fdiv d (numChunks maxv d))
      ≤ (d:ℚ)/(numChunks maxv d : ℚ) + ((d:ℚ)/(numChunks maxv d : ℚ))/2^53 :=
    (rnd53pair_bounds hdpos hNpos).2
  have hQpos : 0 < val (fdiv d (numChunks maxv d)) := rnd53pair_val_pos hdpos hNpos
  have hx1 : 0 < (fdiv d (numChunks maxv d)).1 := mantissa_pos hQpos
  have hQgt : (2:ℚ) < val (fdiv d (numChunks maxv d)) := by
    have h52 : (5:ℚ)/2 ≤ (d:ℚ)/(numChunks maxv d : ℚ) := by linarith [hDN, hmq5]
    linarith [hQlow, h52]
  have hNQ : (numChunks maxv d : ℚ) * val (fdiv d (numChunks maxv d)) ≤ d + (d:ℚ)/2^53 := by
    have h1 := mul_le_mul_of_nonneg_left hQup (le_of_lt hNq)
    have h2 : (numChunks maxv d : ℚ)
        * ((d:ℚ)/(numChunks maxv d : ℚ) + ((d:ℚ)/(numChunks maxv d : ℚ))/2^53)
        = d + (d:ℚ)/2^53 := by
      field_simp
      ring
    linarith [h1, h2.le, h2.ge]
  have h5N : 5 * (numChunks maxv d : ℚ) ≤ (numChunks maxv d : ℚ) * maxv := by
    nlinarith [hNq.le, hmq5]
  have hN53 : (numChunks maxv d : ℚ) < 2 ^ 53 := by
    have h6 : (2:ℚ) * 2^40 ≤ (2:ℚ)^53 := by norm_num
    linarith [h5N, hNM, hdleq, hNq]
  have hVbound : ∀ i : Nat, i ≤ numChunks maxv d →
      (i:ℚ) * val (fdiv d (numChunks maxv d))
          - ((i:ℚ) * val (fdiv d (numChunks maxv d)))/2^53
        ≤ val (fmul i (fdiv d (numChunks maxv d)))
      ∧ val (fmul i (fdiv d (numChunks maxv d)))
        ≤ (i:ℚ) * val (fdiv d (numChunks maxv d))
          + ((i:ℚ) * val (fdiv d (numChunks maxv d)))/2^53 := by
    intro i hi
    rcases Nat.eq_zero_or_pos i with h0 | hpos
    · subst h0
      rw [fmul_zero_val]
      norm_num
    · have hiq : (i:ℚ) ≤ (numChunks maxv d : ℚ) := by exact_mod_cast hi
      exact fmul_bounds hpos (lt_of_le_of_lt hiq hN53) hx1
  refine ⟨hNpos, ?_, ?_, ?_⟩
  · have hf : ((cut d (numChunks maxv d) 0 : ℕ) : ℚ) ≤ 0 := by
      have h := ffloor_le (fmul 0 (fdiv d (numChunks maxv d)))
      rw [fmul_zero_val] at h
      exact h
    have h0 : ((cut d (numChunks maxv d) 0 : ℕ) : ℚ) = 0 :=
      le_antisymm hf (by positivity)
    exact_mod_cast h0
  · intro i hi
    have hlow1 := (hVbound (i+1) (by omega)).1
    have hup0 := (hVbound i (by omega)).2
    have hiw : (i:ℚ) * val (fdiv d (numChunks maxv d))
        ≤ (numChunks maxv d : ℚ) * val (fdiv d (numChunks maxv d)) := by
      have hic : (i:ℚ) ≤ (numChunks maxv d : ℚ) := by exact_mod_cast hi.le
      exact mul_le_mul_of_nonneg_right hic (le_of_lt hQpos)
    have hcast : ((i + 1 : ℕ) : ℚ) = (i:ℚ) + 1 := by push_cast; ring
    rw [hcast] at hlow1
    have hexp : ((i:ℚ) + 1) * val (fdiv d (numChunks maxv d))
        = (i:ℚ) * val (fdiv d (numChunks maxv d)) + val (fdiv d (numChunks maxv d)) := by
      ring
    rw [hexp] at hlow1
    have hgrow : val (fmul i (fdiv d (numChunks maxv d))) + 1
        ≤ val (fmul (i+1) (fdiv d (numChunks maxv d))) := by
      linarith [hlow1, hup0, hiw, hNQ, hdleq, hQgt]
    have hfi : ((cut d (numChunks maxv d) i : ℕ) : ℚ)
        ≤ val (fmul i (fdiv d (numChunks maxv d))) := ffloor_le _
    have hfi1 : val (fmul (i+1) (fdiv d (numChunks maxv d)))
        < ((cut d (numChunks maxv d) (i+1) : ℕ) : ℚ) + 1 := lt_ffloor_add_one _
    have hq : ((cut d (numChunks maxv d) i : ℕ) : ℚ)
        < ((cut d (numChunks maxv d) (i+1) : ℕ) : ℚ) := by
      linarith [hfi, hfi1, hgrow]
    exact_mod_cast hq
  · intro j hj
    have hfj : ((cut d (numChunks maxv d) j : ℕ) : ℚ)
        ≤ val (fmul j (fdiv d (numChunks maxv d))) := ffloor_le _
    have hub := (hVbound j hj).2
    have hjw : (j:ℚ) * val (fdiv d (numChunks maxv d))
        ≤ (numChunks maxv d : ℚ) * val (fdiv d (numChunks maxv d)) := by
      have hjc : (j:ℚ) ≤ (numChunks maxv d : ℚ) := by exact_mod_cast hj
      exact mul_le_mul_of_nonneg_right hjc (le_of_lt hQpos)
    have hlt : ((cut d (numChunks maxv d) j : ℕ) : ℚ) < (d:ℚ) + 1 := by
      linarith [hfj, hub, hjw, hNQ, hdleq]
    have hn : cut d (numChunks maxv d) j < d + 1 := by exact_mod_cast hlt
    omega


/-- A segment list is a chain above lower bound `lb`: every segment is
non-empty, starts at or after `lb`, and each segment ends at or before the
next one starts. -/
def ChainLB : List (Nat × Nat) → Nat → Prop
  | [], _ => True
  | p :: rest, lb => lb ≤ p.1 ∧ p.1 < p.2 ∧ ChainLB rest p.2

lemma chainLB_mono {l : List (Nat × Nat)} {lb lb' : Nat}
    (h : ChainLB l lb') (hle : lb ≤ lb') : ChainLB l lb := by
  cases l with
  | nil => trivial
  | cons p rest => exact ⟨le_trans hle h.1, h.2.1, h.2.2⟩

/-- Lower bound on future segment starts given the loop state. -/
def stateLB : Option Nat → Nat → Nat
  | none, i => i * frameMs
  | some s, _ => s * frameMs

lemma detectLoop_chainLB (m : Nat) :
    ∀ (frames : List Bool) (i : Nat) (st : Option Nat),
      (∀ s, st = some s → s < i) →
      ChainLB (detectLoop m frames i st) (stateLB st i) := by
  intro frames
  induction frames with
  | nil =>
      intro i st hst
      cases st with
      | none => simp [detectLoop, ChainLB]
      | some s =>
          have hsi : s < i := hst s rfl
          simp only [detectLoop]
          split
          · refine ⟨le_refl _, ?_, trivial⟩
            simp only [frameMs]; omega
          · trivial
  | cons b rest ih =>
      intro i st hst
      cases st with
      | none =>
          simp only [detectLoop]
          split
          · have h := ih (i + 1) (some i) (by intro s hs; cases hs; omega)
            exact h
          · have h := ih (i + 1) none (by intro s hs; cases hs)
            exact chainLB_mono h (by simp only [stateLB, frameMs]; omega)
      | some s =>
          have hsi : s < i := hst s rfl
          simp only [detectLoop]
          split
          · have h := ih (i + 1) (some s) (by intro s' hs'; cases hs'; omega)
            exact h
          · have h := ih (i + 1) none (by intro s' hs'; cases hs')
            split
            · refine ⟨le_refl _, ?_, ?_⟩
              · simp only [frameMs]; omega
              · exact chainLB_mono h (by simp only [stateLB, frameMs]; omega)
            · exact chainLB_mono h (by simp only [stateLB, frameMs]; omega)

lemma detect_chainLB (m : Nat) (frames : List Bool) :
    ChainLB (detect_speech_segments_webrtc m frames) 0 := by
  have h := detectLoop_chainLB m frames 0 none (by intro s hs; cases hs)
  simpa [detect_speech_segments_webrtc, stateLB] using h

lemma chainLB_claim :
    ∀ {l : List (Nat × Nat)} {lb : Nat}, ChainLB l lb →
      (∀ p ∈ l, p.1 < p.2)
        ∧ List.Chain' (fun p q => p.1 + (p.2 - p.1) ≤ q.1 ∧ p.1 < q.1) l := by
  intro l
  induction l with
  | nil => intro lb _; exact ⟨by simp, List.chain'_nil⟩
  | cons p rest ih =>
      intro lb h
      obtain ⟨hlb, hpp, hrest⟩ := h
      obtain ⟨hall, hchain⟩ := ih hrest
      refine ⟨?_, ?_⟩
      · intro q hq
        rcases List.mem_cons.mp hq with hq | hq
        · rw [hq]; exact hpp
        · exact hall q hq
      · cases rest with
        | nil => exact List.chain'_singleton p
        | cons q rest2 =>
            refine List.chain'_cons.mpr ⟨⟨?_, ?_⟩, hchain⟩
            · have hq1 : p.2 ≤ q.1 := hrest.1
              omega
            · have hq1 : p.2 ≤ q.1 := hrest.1
              omega

lemma chainLB_append : ∀ (l₁ l₂ : List (Nat × Nat)) (lb B : Nat),
    ChainLB l₁ lb → ChainLB l₂ B → lb ≤ B → (∀ p ∈ l₁, p.2 ≤ B) →
    ChainLB (l₁ ++ l₂) lb := by
  intro l₁
  induction l₁ with
  | nil =>
      intro l₂ lb B _ h2 hlbB _
      exact chainLB_mono h2 hlbB
  | cons p rest ih =>
      intro l₂ lb B h1 h2 hlbB hends
      obtain ⟨ha, hb, hc⟩ := h1
      refine ⟨ha, hb, ?_⟩
      exact ih l₂ p.2 B hc h2 (hends p (by simp))
        (fun q hq => hends q (List.mem_cons_of_mem p hq))

lemma chainLB_range' (f : Nat → Nat) :
    ∀ (cnt s lb : Nat), lb ≤ f s →
      (∀ i, s ≤ i → i < s + cnt → f i < f (i + 1)) →
      ChainLB ((List.range' s cnt).map (fun i => (f i, f (i + 1)))) lb := by
  intro cnt
  induction cnt with
  | zero =>
      intro s lb _ _
      exact trivial
  | succ n ih =>
      intro s lb hlb hmono
      rw [List.range'_succ, List.map_cons]
      refine ⟨hlb, hmono s (le_refl s) (by omega), ?_⟩
      exact ih (s + 1) (f (s + 1)) (le_refl _)
        (fun i h1 h2 => hmono i (by omega) (by omega))

lemma chainLB_range_map (f : Nat → Nat) (n lb : Nat) (h0 : lb ≤ f 0)
    (hmono : ∀ i, i < n → f i < f (i + 1)) :
    ChainLB ((List.range n).map (fun i => (f i, f (i + 1)))) lb := by
  rw [List.range_eq_range']
  exact chainLB_range' f n 0 lb h0 (fun i _ h2 => hmono i (by omega))

/-- Splitting one non-empty segment of a physical session (end at most
`2 ^ 40` ms) yields a chain of non-empty pieces inside the segment. -/
lemma splitSeg_chain {maxv : Nat} (hmax : 5 ≤ maxv) (seg : Nat × Nat)
    (hne : seg.1 < seg.2) (hbd : seg.2 ≤ 2 ^ 40) :
    ChainLB (splitSeg maxv seg) seg.1 ∧ ∀ p ∈ splitSeg maxv seg, p.2 ≤ seg.2 := by
  by_cases hc : seg.2 - seg.1 ≤ maxv
  · simp only [splitSeg]
    rw [if_pos hc]
    refine ⟨⟨le_refl _, hne, trivial⟩, ?_⟩
    intro p hp
    simp only [List.mem_singleton] at hp
    rw [hp]
  · push_neg at hc
    obtain ⟨hN, h0, hm, hle⟩ := cut_facts hmax hc (by omega)
    simp only [splitSeg]
    rw [if_neg (by omega)]
    constructor
    · refine chainLB_range_map
        (fun i => seg.1 + cut (seg.2 - seg.1) (numChunks maxv (seg.2 - seg.1)) i)
        (numChunks maxv (seg.2 - seg.1)) seg.1 ?_ ?_
      · show seg.1 ≤ seg.1 + cut (seg.2 - seg.1) (numChunks maxv (seg.2 - seg.1)) 0
        rw [h0]
        omega
      · intro i hi
        show seg.1 + cut (seg.2 - seg.1) (numChunks maxv (seg.2 - seg.1)) i
          < seg.1 + cut (seg.2 - seg.1) (numChunks maxv (seg.2 - seg.1)) (i + 1)
        have := hm i hi
        omega
    · intro p hp
      simp only [List.mem_map, List.mem_range] at hp
      obtain ⟨i, hi, rfl⟩ := hp
      have := hle (i + 1) (by omega)
      omega

/-- `split_long_segments` preserves the ordering/non-overlap chain of any
segment list whose segments end within a physical session. -/
lemma splitAll_chain {maxv : Nat} (hmax : 5 ≤ maxv) :
    ∀ (segs : List (Nat × Nat)) (lb : Nat), ChainLB segs lb →
      (∀ p ∈ segs, p.2 ≤ 2 ^ 40) →
      ChainLB (split_long_segments maxv segs) lb := by
  intro segs
  induction segs with
  | nil =>
      intro lb _ _
      exact trivial
  | cons p rest ih =>
      intro lb h hbd
      obtain ⟨hlb, hpp, hrest⟩ := h
      have hp2 : p.2 ≤ 2 ^ 40 := hbd p (by simp)
      obtain ⟨hch, hends⟩ := splitSeg_chain hmax p hpp hp2
      have hr := ih p.2 hrest (fun q hq => hbd q (List.mem_cons_of_mem p hq))
      show ChainLB (splitSeg maxv p ++ split_long_segments maxv rest) lb
      exact chainLB_append _ _ lb p.2 (chainLB_mono hch hlb) hr (by omega) hends

/-- Every segment emitted by the detection loop ends no later than the end
of the frame stream. -/
lemma detectLoop_ends_le (m : Nat) :
    ∀ (frames : List Bool) (i : Nat) (st : Option Nat),
      ∀ p ∈ detectLoop m frames i st, p.2 ≤ (i + frames.length) * frameMs := by
  intro frames
  induction frames with
  | nil =>
      intro i st p hp
      cases st with
      | none => simp [detectLoop] at hp
      | some s =>
          simp only [detectLoop] at hp
          split at hp
          · simp only [List.mem_singleton] at hp
            rw [hp]
            simp
          · simp at hp
  | cons b rest ih =>
      intro i st p hp
      cases st with
      | none =>
          simp only [detectLoop] at hp
          split at hp
          · have h := ih (i + 1) (some i) p hp
            simp only [List.length_cons, frameMs] at h ⊢
            omega
          · have h := ih (i + 1) none p hp
            simp only [List.length_cons, frameMs] at h ⊢
            omega
      | some s =>
          simp only [detectLoop] at hp
          split at hp
          · have h := ih (i + 1) (some s) p hp
            simp only [List.length_cons, frameMs] at h ⊢
            omega
          · rw [List.mem_append] at hp
            rcases hp with hp | hp
            · split at hp
              · simp only [List.mem_singleton] at hp
                rw [hp]
                simp only [List.length_cons, frameMs]
                omega
              · simp at hp
            · have h := ih (i + 1) none p hp
              simp only [List.length_cons, frameMs] at h ⊢
              omega

lemma detectLoop_replicate_some (n : Nat) : ∀ (i s : Nat),
    detectLoop 0 (List.replicate n true) i (some s)
      = [(s * frameMs, (i + n) * frameMs)] := by
  induction n with
  | zero =>
      intro i s
      simp [detectLoop]
  | succ n ih =>
      intro i s
      rw [List.replicate_succ]
      show detectLoop 0 (true :: List.replicate n true) i (some s) = _
      simp only [detectLoop, if_true]
      rw [ih (i + 1) s, show i + 1 + n = i + (n + 1) from by omega]

/-- A stream of `k ≥ 1` speech frames yields the single run
`(0, k * frameMs)` under a zero speech-duration floor. -/
lemma detect_replicate_true (k : Nat) (hk : 0 < k) :
    detect_speech_segments_webrtc 0 (List.replicate k true) = [(0, k * frameMs)] := by
  cases k with
  | zero => omega
  | succ n =>
      rw [detect_speech_segments_webrtc, List.replicate_succ]
      show detectLoop 0 (true :: List.replicate n true) 0 none = _
      simp only [detectLoop, if_true]
      rw [detectLoop_replicate_some n 1 0]
      rw [show (1 + n) = n + 1 from by omega]
      simp

/-- C1 (amended): for ceilings of at least 5 ms and sessions of at most
`2 ^ 35` frames (over 3 000 years of audio), the segment list produced by
the detection scan followed by long-segment splitting consists of non-empty
segments that are non-overlapping and strictly increasing in offset:
`p.offset + p.duration ≤ q.offset` and `p.offset < q.offset` for every
consecutive pair.  The bounds are needed: with astronomically long input
the float rounding of `int(i * (duration / num_chunks))` can produce an
empty piece and a repeated offset. -/
theorem vad_segments_nonoverlapping_ordered_bounded
    (minSpeechMs maxLengthMs : Nat) (frames : List Bool)
    (hmax : 5 ≤ maxLengthMs) (hlen : frames.length ≤ 2 ^ 35) :
    (∀ p ∈ split_long_segments maxLengthMs
        (detect_speech_segments_webrtc minSpeechMs frames), p.1 < p.2)
    ∧ List.Chain' (fun p q => p.1 + (p.2 - p.1) ≤ q.1 ∧ p.1 < q.1)
        (split_long_segments maxLengthMs
          (detect_speech_segments_webrtc minSpeechMs frames)) := by
  have hchain := detect_chainLB minSpeechMs frames
  have hbd : ∀ p ∈ detect_speech_segments_webrtc minSpeechMs frames, p.2 ≤ 2 ^ 40 := by
    intro p hp
    have h := detectLoop_ends_le minSpeechMs frames 0 none p hp
    simp only [frameMs] at h
    have h1 : (2:ℕ) ^ 35 * 30 ≤ 2 ^ 40 := by norm_num
    omega
  exact chainLB_claim
    (splitAll_chain hmax (detect_speech_segments_webrtc minSpeechMs frames) 0 hchain hbd)

/-- Witness for C1's amended statement: four frames with a proper split
configuration. -/
theorem vad_segments_nonoverlapping_ordered_bounded_witness :
    (5 ≤ 30000
      ∧ ([true, false, true, false] : List Bool).length ≤ 2 ^ 35)
    ∧ ((∀ p ∈ split_long_segments 30000
          (detect_speech_segments_webrtc 0 [true, false, true, false]), p.1 < p.2)
       ∧ List.Chain' (fun p q => p.1 + (p.2 - p.1) ≤ q.1 ∧ p.1 < q.1)
          (split_long_segments 30000
            (detect_speech_segments_webrtc 0 [true, false, true, false]))) :=
  ⟨⟨by decide, by decide⟩,
    vad_segments_nonoverlapping_ordered_bounded 0 30000 [true, false, true, false]
      (by decide) (by decide)⟩

/-- Refuting a chain over `(List.range' s n).map (fun i => f i)` at one
adjacent index pair, without materialising the list. -/
lemma not_chain'_range'_map {R : Nat × Nat → Nat × Nat → Prop} (f : Nat → Nat × Nat) :
    ∀ (n s i : Nat), s ≤ i → i + 1 < s + n → ¬ R (f i) (f (i + 1)) →
      ¬ List.Chain' R ((List.range' s n).map f) := by
  intro n
  induction n with
  | zero =>
      intro s i h1 h2 _ _
      omega
  | succ m ih =>
      intro s i h1 h2 hnot hchain
      rw [List.range'_succ, List.map_cons] at hchain
      rcases eq_or_lt_of_le h1 with rfl | hlt
      · cases m with
        | zero => omega
        | succ k =>
            rw [List.range'_succ, List.map_cons] at hchain
            exact hnot (List.chain'_cons.mp hchain).1
      · have htail := (List.chain'_cons'.mp hchain).2
        exact ih (s + 1) i (by omega) (by omega) hnot htail

/-- C1 counterexample at full generality: for an unbounded session the
ordering claim is false of the program.  A run of `900719925474100` speech
frames (duration `27021597764223000` ms) split with a 2 ms ceiling gives
`num_chunks = 13510798882111500`, and the float products land consecutive
indices on the same cut point:
`int(9007199254740995 * chunk_length) = int(9007199254740996 * chunk_length)
= 18014398509481992`, so two consecutive pieces share an offset and the
strict-increase part of the claim fails. -/
theorem vad_segments_order_fails_at_scale :
    ¬ List.Chain' (fun p q => p.1 + (p.2 - p.1) ≤ q.1 ∧ p.1 < q.1)
        (split_long_segments 2
          (detect_speech_segments_webrtc 0 (List.replicate 900719925474100 true))) := by
  rw [detect_replicate_true 900719925474100 (by norm_num)]
  rw [show (900719925474100 * frameMs : ℕ) = 27021597764223000 from by
    norm_num [frameMs]]
  rw [show split_long_segments 2 [(0, 27021597764223000)]
      = splitSeg 2 (0, 27021597764223000) from by
    simp [split_long_segments]]
  rw [show splitSeg 2 (0, 27021597764223000)
      = (List.range (numChunks 2 27021597764223000)).map
          (fun i => (cut 27021597764223000 (numChunks 2 27021597764223000) i,
                     cut 27021597764223000 (numChunks 2 27021597764223000) (i + 1)))
    from by norm_num [splitSeg]]
  rw [show numChunks 2 27021597764223000 = 13510798882111500 from by decide]
  rw [List.range_eq_range']
  exact not_chain'_range'_map _ 13510798882111500 0 9007199254740995
    (by norm_num) (by norm_num) (by decide)

/-- C2 (code-bug evidence): the splitter's float arithmetic does not make
the final sub-interval end at the original end.  Splitting `(0, 500001)`
with the default 50 000 ms ceiling yields eleven pieces whose last one ends
at `500000 = int(11 * (500001 / 11))`, one millisecond short of `500001`,
so the claimed exact-coverage invariant fails; the claim's own worked
example `(12000, 57000)` with a 30 000 ms ceiling still splits exactly as
stated, the quotient being representable. -/
theorem split_long_segments_drops_final_millisecond :
    split_long_segments 50000 [(0, 500001)]
      = [(0, 45454), (45454, 90909), (90909, 136363), (136363, 181818),
         (181818, 227273), (227273, 272727), (272727, 318182), (318182, 363637),
         (363637, 409091), (409091, 454546), (454546, 500000)]
    ∧ (500000 : ℕ) ≠ 500001
    ∧ splitSeg 30000 (12000, 57000) = [(12000, 34500), (34500, 57000)] :=
  ⟨by decide, by decide, by decide⟩


/-- C4 (code-bug evidence): in `detect_speech_segments_webrtc`, any single
non-speech frame terminates the current speech run; `min_silence_duration`
is never consulted by this path.  With 30 ms frames, a run of four speech
frames, a 60 ms silence gap (shorter than the configured minimum silence of
100 ms), and four more speech frames yields two segments instead of the one
absorbed run the specification requires. -/
theorem webrtc_silence_gap_splits_run :
    detect_speech_segments_webrtc 100
        [true, true, true, true, false, false, true, true, true, true]
      = [(0, 120), (180, 300)] := by decide

lemma detectLoop_eq_filter (m : Nat) :
    ∀ (frames : List Bool) (i : Nat) (st : Option Nat),
      detectLoop m frames i st = filterShortSegments m (detectLoop 0 frames i st) := by
  intro frames
  induction frames with
  | nil =>
      intro i st
      cases st with
      | none => rfl
      | some s =>
          simp only [detectLoop, Nat.zero_le, if_true, filterShortSegments, List.filter]
          split
          · rename_i hcond
            simp [hcond]
          · rename_i hcond
            simp [hcond]
  | cons b rest ih =>
      intro i st
      cases st with
      | none =>
          simp only [detectLoop]
          cases b with
          | true => simpa using ih (i + 1) (some i)
          | false => simpa using ih (i + 1) none
      | some s =>
          simp only [detectLoop]
          cases b with
          | true => simpa using ih (i + 1) (some s)
          | false =>
              simp only [Bool.false_eq_true, if_false, Nat.zero_le, if_true]
              rw [ih (i + 1) none]
              simp only [filterShortSegments, List.filter_append]
              congr 1
              simp only [List.filter]
              split
              · rename_i hcond
                simp [hcond]
              · rename_i hcond
                simp [hcond]

/-- C5: a candidate speech interval is retained exactly when its duration
reaches the configured minimum: the energy path keeps a candidate iff
`min_speech_ms ≤ end - start` (and never merges discarded candidates into
neighbours, the output being a sublist of the candidates), the WebRTC path
equals its own unfiltered candidate stream filtered by the same rule, and a
200 ms run under a 250 ms minimum produces zero segments. -/
theorem segment_retention_iff_min_duration :
    (∀ (m : Nat) (segs : List (Nat × Nat)) (p : Nat × Nat),
        p ∈ filterShortSegments m segs ↔ p ∈ segs ∧ m ≤ p.2 - p.1)
    ∧ (∀ (m : Nat) (segs : List (Nat × Nat)),
        (filterShortSegments m segs).Sublist segs)
    ∧ (∀ (m : Nat) (frames : List Bool),
        detect_speech_segments_webrtc m frames
          = filterShortSegments m (detect_speech_segments_webrtc 0 frames))
    ∧ filterShortSegments 250 [(0, 200)] = [] := by
  refine ⟨?_, ?_, ?_, by decide⟩
  · intro m segs p
    simp [filterShortSegments, List.mem_filter]
  · intro m segs
    exact List.filter_sublist segs
  · intro m frames
    exact detectLoop_eq_filter m frames 0 none

/-! ## Chunk timeline builder (`utils/timestamp_manager.py`) -/

/-- One element of `chunks_info` as consumed by
`TimestampManager.create_chunks_timeline`: the keys `chunk_id`, `offset_ms`
and `duration_ms` are read directly; `is_speech` and `audio_file` are read
with `dict.get`, so a missing key is `none`. -/
structure ChunkInfo where
  chunk_id : String
  offset_ms : Nat
  duration_ms : Nat
  is_speech : Option Bool
  audio_file : Option String
deriving Repr, DecidableEq

/-- One entry of the produced `chunks_timeline` (`chunk_entry` in the
source).  The formatted wall-clock strings are embedded as milliseconds
since the session epoch. -/
structure ChunkEntry where
  chunk_id : String
  offset_ms : Nat
  duration_ms : Nat
  is_speech : Bool
  audio_file : Option String
  absolute_start : Nat
  absolute_end : Nat
deriving Repr, DecidableEq

/-- The loop body of `create_chunks_timeline` (lines 159-185):
`absolute_start = session_start + timedelta(milliseconds=offset_ms)` and
`absolute_end = absolute_start + timedelta(milliseconds=duration_ms)`, with
`is_speech` defaulting to true and `audio_file` defaulting to absent. -/
def mkChunkEntry (sessionStartMs : Nat) (c : ChunkInfo) : ChunkEntry :=
  let absStart := sessionStartMs + c.offset_ms
  { chunk_id := c.chunk_id
    offset_ms := c.offset_ms
    duration_ms := c.duration_ms
    is_speech := c.is_speech.getD true
    audio_file := c.audio_file
    absolute_start := absStart
    absolute_end := absStart + c.duration_ms }

/-- `TimestampManager.create_chunks_timeline`: one entry per input chunk, in
input order.  The source performs no validation of any kind on
`chunks_info` before or during the loop. -/
def create_chunks_timeline (sessionStartMs : Nat) (chunks : List ChunkInfo) :
    List ChunkEntry :=
  chunks.map (mkChunkEntry sessionStartMs)

/-- Modelled from the spec: the defensive invariant check the specification
ascribes to the Timeline Builder (segment offsets sorted and
non-overlapping, consecutive chunks satisfying
`offset + duration ≤ next offset`).  No such check exists anywhere in
`utils/timestamp_manager.py`; this definition exists only to state the
divergence. -/
def chunksSortedNonOverlapping : List ChunkInfo → Bool
  | [] => true
  | [_] => true
  | a :: b :: rest =>
      decide (a.offset_ms + a.duration_ms ≤ b.offset_ms)
        && chunksSortedNonOverlapping (b :: rest)

/-- Modelled from the spec: the Timeline Builder as the specification
describes it, failing with `DataIntegrityError` on unsorted or overlapping
input instead of building a timeline. -/
def create_chunks_timeline_specModel (sessionStartMs : Nat)
    (chunks : List ChunkInfo) : Except String (List ChunkEntry) :=
  if chunksSortedNonOverlapping chunks then
    Except.ok (create_chunks_timeline sessionStartMs chunks)
  else Except.error "DataIntegrityError"

/-- An unsorted, overlapping chunk list: the second chunk starts before the
first one and they overlap. -/
def badChunks : List ChunkInfo :=
  [{ chunk_id := "001", offset_ms := 100, duration_ms := 50,
     is_speech := none, audio_file := none },
   { chunk_id := "000", offset_ms := 0, duration_ms := 200,
     is_speech := none, audio_file := none }]

/-- C3: the Chunk Timeline Builder computes
`absolute_start = session_start + offset_ms` and
`absolute_end = absolute_start + duration_ms` for every chunk, it is
deterministic (a pure function of its inputs), and for
`session_start = 2025-12-01T14:00:00.000` (50400000 ms after the session
day's midnight) a chunk `(offset=300000, duration=5000)` gets
`absolute_start = 50700000` (14:05:00.000) and
`absolute_end = 50705000` (14:05:05.000). -/
theorem chunks_timeline_absolute_times :
    (∀ (sessionStartMs : Nat) (cs : List ChunkInfo),
        (create_chunks_timeline sessionStartMs cs).map
            (fun e => (e.absolute_start, e.absolute_end))
          = cs.map (fun c =>
              (sessionStartMs + c.offset_ms,
               sessionStartMs + c.offset_ms + c.duration_ms)))
    ∧ (∀ (sessionStartMs : Nat) (cs : List ChunkInfo),
        create_chunks_timeline sessionStartMs cs
          = create_chunks_timeline sessionStartMs cs)
    ∧ (create_chunks_timeline 50400000
        [{ chunk_id := "001", offset_ms := 300000, duration_ms := 5000,
           is_speech := none, audio_file := none }]).map
          (fun e => (e.absolute_start, e.absolute_end))
        = [(50700000, 50705000)] := by
  refine ⟨?_, fun _ _ => rfl, by decide⟩
  intro sessionStartMs cs
  simp [create_chunks_timeline, mkChunkEntry]

/-- C10: the builder emits exactly one entry per input chunk, in input
order; `chunk_id`, `offset_ms` and `duration_ms` are copied unchanged;
`is_speech` defaults to true and `audio_file` to absent when missing; only
the derived `absolute_start` and `absolute_end` are added; the input list
is not modified (the output is a fresh `map` of it). -/
theorem chunks_timeline_preserves_input :
    ∀ (sessionStartMs : Nat) (cs : List ChunkInfo),
      (create_chunks_timeline sessionStartMs cs).length = cs.length
      ∧ (∀ i : Nat, (create_chunks_timeline sessionStartMs cs)[i]?
          = (cs[i]?).map (mkChunkEntry sessionStartMs))
      ∧ (∀ c : ChunkInfo,
          (mkChunkEntry sessionStartMs c).chunk_id = c.chunk_id
          ∧ (mkChunkEntry sessionStartMs c).offset_ms = c.offset_ms
          ∧ (mkChunkEntry sessionStartMs c).duration_ms = c.duration_ms
          ∧ (mkChunkEntry sessionStartMs c).is_speech = c.is_speech.getD true
          ∧ (mkChunkEntry sessionStartMs c).audio_file = c.audio_file
          ∧ (mkChunkEntry sessionStartMs c).absolute_start
              = sessionStartMs + c.offset_ms
          ∧ (mkChunkEntry sessionStartMs c).absolute_end
              = sessionStartMs + c.offset_ms + c.duration_ms) := by
  intro sessionStartMs cs
  refine ⟨by simp [create_chunks_timeline], ?_, ?_⟩
  · intro i
    simp [create_chunks_timeline, List.getElem?_map]
  · intro c
    simp [mkChunkEntry]

/-- C6 counterexample: the code builds a normal two-entry timeline from an
unsorted, overlapping chunk list, in input order, whereas the claim requires
construction to fail with a `DataIntegrityError`; the spec-modelled checked
builder does reject the same input. -/
theorem chunks_timeline_accepts_overlap_cex :
    (create_chunks_timeline 0 badChunks).length = 2
    ∧ (create_chunks_timeline 0 badChunks).map (fun e => e.offset_ms) = [100, 0]
    ∧ chunksSortedNonOverlapping badChunks = false
    ∧ create_chunks_timeline_specModel 0 badChunks
        = Except.error "DataIntegrityError" := by
  refine ⟨by decide, by decide, by decide, ?_⟩
  simp [create_chunks_timeline_specModel, badChunks, chunksSortedNonOverlapping]

/-- C6 amended: `create_chunks_timeline` performs no validation at all --
every chunk list, unsorted or overlapping included, is accepted and
processed in input order without error, and the input is never reordered
(offsets appear in the output exactly as given); in particular a sorted
non-overlapping list raises no error either. -/
theorem chunks_timeline_never_validates :
    ∀ (sessionStartMs : Nat) (cs : List ChunkInfo),
      (create_chunks_timeline sessionStartMs cs).length = cs.length
      ∧ (create_chunks_timeline sessionStartMs cs).map (fun e => e.offset_ms)
          = cs.map (fun c => c.offset_ms) := by
  intro sessionStartMs cs
  refine ⟨by simp [create_chunks_timeline], ?_⟩
  simp [create_chunks_timeline, mkChunkEntry]

/-! ## Result-timeline aligner (`utils/timestamp_manager.py`) -/

/-- One word of a recognition result (`{"word", "start_ms", "end_ms"}`),
offsets relative to the owning chunk's start. -/
structure WordInfo where
  word : String
  start_ms : Nat
  end_ms : Nat
deriving Repr, DecidableEq

/-- One recognition result as consumed by
`align_stt_results_with_timeline`: transcript, optional confidence (an
opaque payload copied through unchanged, embedded as a natural number) and
an optional word list. -/
structure SttResult where
  transcript : String
  confidence : Option Nat
  words : Option (List WordInfo)
deriving Repr, DecidableEq

/-- One aligned word of an output event. -/
structure WordEvent where
  word : String
  absolute_start : Nat
  absolute_end : Nat
  start_offset_ms : Nat
  end_offset_ms : Nat
deriving Repr, DecidableEq

/-- One aligned output event. -/
structure Event where
  chunk_id : String
  absolute_start : Nat
  absolute_end : Nat
  transcript : String
  confidence : Option Nat
  words : Option (List WordEvent)
deriving Repr, DecidableEq

/-- The `chunk_map` dict comprehension: maps a chunk identifier to the last
timeline chunk bearing it (a later duplicate key overwrites an earlier one
in a Python dict), `none` when absent. -/
def chunkMapFind (chunks : List ChunkEntry) (id : String) : Option ChunkEntry :=
  chunks.foldl (fun acc c => if c.chunk_id = id then some c else acc) none

/-- The word-conversion loop body: absolute times are the owning chunk's
start plus the word's relative offsets, with no bound check of any kind. -/
def alignWord (chunkStartMs : Nat) (w : WordInfo) : WordEvent :=
  { word := w.word
    absolute_start := chunkStartMs + w.start_ms
    absolute_end := chunkStartMs + w.end_ms
    start_offset_ms := w.start_ms
    end_offset_ms := w.end_ms }

/-- One event of `align_stt_results_with_timeline` for a matched chunk. -/
def alignEvent (c : ChunkEntry) (id : String) (r : SttResult) : Event :=
  { chunk_id := id
    absolute_start := c.absolute_start
    absolute_end := c.absolute_end
    transcript := r.transcript
    confidence := r.confidence
    words := r.words.map (fun ws => ws.map (alignWord c.absolute_start)) }

/-- Stable insertion step for the final
`events.sort(key=lambda x: x["absolute_start"])`. -/
def insertByStart (e : Event) : List Event → List Event
  | [] => [e]
  | f :: rest =>
      if e.absolute_start < f.absolute_start then e :: f :: rest
      else f :: insertByStart e rest

/-- Stable sort of the event list by `absolute_start` (Python's stable sort
on the fixed-width formatted timestamp string, which orders exactly as the
millisecond value). -/
def sortByStart (l : List Event) : List Event :=
  l.foldl (fun acc e => insertByStart e acc) []

/-- `TimestampManager.align_stt_results_with_timeline` (lines 201-291): walk
the recognition-result map in iteration order, skip identifiers absent from
the timeline, emit one event per matched identifier, then sort the events
by absolute start. -/
def align_stt_results_with_timeline (sttResults : List (String × SttResult))
    (chunks : List ChunkEntry) : List Event :=
  sortByStart (sttResults.filterMap
    (fun p => (chunkMapFind chunks p.1).map (fun c => alignEvent c p.1 p.2)))

lemma insertByStart_length (e : Event) (l : List Event) :
    (insertByStart e l).length = l.length + 1 := by
  induction l with
  | nil => rfl
  | cons f rest ih =>
      simp only [insertByStart]
      split
      · simp
      · simp [ih]

lemma sortByStart_length_aux (l : List Event) :
    ∀ acc : List Event,
      (l.foldl (fun acc e => insertByStart e acc) acc).length
        = acc.length + l.length := by
  induction l with
  | nil => intro acc; simp
  | cons e rest ih =>
      intro acc
      simp only [List.foldl_cons]
      rw [ih (insertByStart e acc), insertByStart_length]
      simp only [List.length_cons]
      omega

lemma sortByStart_length (l : List Event) : (sortByStart l).length = l.length := by
  have h := sortByStart_length_aux l []
  simpa [sortByStart] using h

lemma insertByStart_mem (a e : Event) (l : List Event) :
    a ∈ insertByStart e l ↔ a = e ∨ a ∈ l := by
  induction l with
  | nil => simp [insertByStart]
  | cons f rest ih =>
      simp only [insertByStart]
      split
      · simp only [List.mem_cons]
      · rw [List.mem_cons, ih, List.mem_cons]
        tauto

lemma sortByStart_mem_aux (l : List Event) :
    ∀ (acc : List Event) (a : Event),
      a ∈ l.foldl (fun acc e => insertByStart e acc) acc ↔ a ∈ acc ∨ a ∈ l := by
  induction l with
  | nil => intro acc a; simp
  | cons e rest ih =>
      intro acc a
      simp only [List.foldl_cons]
      rw [ih (insertByStart e acc) a, insertByStart_mem]
      simp only [List.mem_cons]
      tauto

lemma sortByStart_mem (a : Event) (l : List Event) :
    a ∈ sortByStart l ↔ a ∈ l := by
  have h := sortByStart_mem_aux l [] a
  simpa [sortByStart] using h

lemma filterMap_length_eq {α β : Type} (f : α → Option β) (l : List α) :
    (l.filterMap f).length = (l.filter (fun x => (f x).isSome)).length := by
  induction l with
  | nil => rfl
  | cons a rest ih =>
      cases hfa : f a with
      | none => simp [List.filterMap_cons, hfa, ih]
      | some b => simp [List.filterMap_cons, hfa, ih]

/-- A timeline chunk whose duration is 3000 ms but whose recognition result
contains a word ending at relative offset 3500 ms. -/
def cexChunk : ChunkEntry :=
  { chunk_id := "chunk_001", offset_ms := 0, duration_ms := 3000,
    is_speech := true, audio_file := none,
    absolute_start := 1000, absolute_end := 4000 }

/-- Recognition output for `cexChunk` whose word overruns the chunk. -/
def cexStt : List (String × SttResult) :=
  [("chunk_001",
    { transcript := "call", confidence := none,
      words := some [{ word := "call", start_ms := 3200, end_ms := 3500 }] })]

/-- The event the source actually produces for `cexStt` over `cexChunk`. -/
def cexEvent : Event :=
  { chunk_id := "chunk_001", absolute_start := 1000, absolute_end := 4000,
    transcript := "call", confidence := none,
    words := some [{ word := "call", absolute_start := 4200,
                     absolute_end := 4500, start_offset_ms := 3200,
                     end_offset_ms := 3500 }] }

/-- The word of `cexEvent`. -/
def cexWord : WordEvent :=
  { word := "call", absolute_start := 4200, absolute_end := 4500,
    start_offset_ms := 3200, end_offset_ms := 3500 }

/-- C7 counterexample: a segment of duration 3000 ms with a token
`end_offset_ms = 3500` produces a token whose `absolute_end` is the chunk
start plus 3500 (= 4500), which differs from the segment's `absolute_end`
(= 4000): nothing is clamped (and the output record carries no clamped
flag at all), refuting the claimed equality. -/
theorem aligner_token_beyond_duration_cex :
    align_stt_results_with_timeline cexStt [cexChunk] = [cexEvent]
    ∧ cexEvent.words = some [cexWord]
    ∧ cexChunk.duration_ms = 3000
    ∧ cexWord.end_offset_ms = 3500
    ∧ cexWord.absolute_end = 4500
    ∧ cexChunk.absolute_end = 4000
    ∧ cexWord.absolute_end ≠ cexChunk.absolute_end := by decide

/-- C7 amended: for every aligned event and every token of it, the token's
absolute times are the owning segment's `absolute_start` plus the token's
relative offsets, computed unconditionally -- an offset beyond the
segment's duration simply lands past the segment's `absolute_end`: no
clamping takes place, no clamped flag is produced, and the run is not
aborted (the event is emitted regardless). -/
theorem aligner_word_times_from_offsets (stt : List (String × SttResult))
    (chunks : List ChunkEntry) (e : Event)
    (he : e ∈ align_stt_results_with_timeline stt chunks)
    (ws : List WordEvent) (hws : e.words = some ws)
    (w : WordEvent) (hw : w ∈ ws) :
    w.absolute_start = e.absolute_start + w.start_offset_ms
    ∧ w.absolute_end = e.absolute_start + w.end_offset_ms := by
  rw [align_stt_results_with_timeline, sortByStart_mem] at he
  obtain ⟨p, hp, hpe⟩ := List.mem_filterMap.mp he
  obtain ⟨c, hc, hce⟩ := Option.map_eq_some'.mp hpe
  subst hce
  simp only [alignEvent] at hws
  obtain ⟨ws0, hws0, hwsmap⟩ := Option.map_eq_some'.mp hws
  subst hwsmap
  obtain ⟨w0, hw0, hww⟩ := List.mem_map.mp hw
  subst hww
  simp [alignEvent, alignWord]

/-- Witness for C7's amended statement at the concrete overrunning token. -/
theorem aligner_word_times_from_offsets_witness :
    cexWord.absolute_start = cexEvent.absolute_start + cexWord.start_offset_ms
    ∧ cexWord.absolute_end = cexEvent.absolute_start + cexWord.end_offset_ms :=
  aligner_word_times_from_offsets cexStt [cexChunk] cexEvent (by decide)
    [cexWord] (by decide) cexWord (by decide)

/-- Recognition-output map with one identifier matched by the timeline
`[cexChunk]` and one unknown identifier. -/
def gapStt : List (String × SttResult) :=
  [("chunk_001", { transcript := "a", confidence := none, words := none }),
   ("chunk_999", { transcript := "b", confidence := none, words := none })]

/-- C8: an identifier present in the recognition-output map but absent from
the timeline is skipped (the aligner is a total function: nothing is raised
and the run is never aborted), and the event list's length equals the
number of identifiers present in both the map and the timeline.  The keys
of the map are distinct, as they are for a Python dict. -/
theorem alignment_gap_tolerated (stt : List (String × SttResult))
    (chunks : List ChunkEntry) (hkeys : (stt.map Prod.fst).Nodup) :
    (align_stt_results_with_timeline stt chunks).length
      = ((stt.map Prod.fst).filter
          (fun id => (chunkMapFind chunks id).isSome)).length := by
  rw [align_stt_results_with_timeline, sortByStart_length, filterMap_length_eq]
  have hpred : (fun (p : String × SttResult) =>
      ((chunkMapFind chunks p.1).map (fun c => alignEvent c p.1 p.2)).isSome)
      = fun p => (chunkMapFind chunks p.1).isSome := by
    funext p
    cases chunkMapFind chunks p.1 <;> rfl
  rw [hpred, List.filter_map, List.length_map]
  rfl

/-- Witness for C8: with one matched and one unknown identifier the aligner
returns exactly one event and matches the filtered-identifier count. -/
theorem alignment_gap_tolerated_witness :
    ((align_stt_results_with_timeline gapStt [cexChunk]).length
      = ((gapStt.map Prod.fst).filter
          (fun id => (chunkMapFind [cexChunk] id).isSome)).length)
    ∧ (align_stt_results_with_timeline gapStt [cexChunk]).length = 1 :=
  ⟨alignment_gap_tolerated gapStt [cexChunk] (by decide), by decide⟩

/-- `TimestampManager.query_by_time_range` (lines 293-325): the query bounds
are given at one-second granularity, every event start is truncated to a
whole second (the source drops the fractional part of the formatted
timestamp before parsing), and an event is returned when
`start_dt <= event_start <= end_dt` -- both endpoints inclusive. -/
def query_by_time_range (events : List Event) (startSec endSec : Nat) :
    List Event :=
  events.filter (fun e =>
    decide (startSec ≤ e.absolute_start / 1000)
      && decide (e.absolute_start / 1000 ≤ endSec))

/-- An event starting exactly on the queried end second. -/
def cexQueryEvent : Event :=
  { chunk_id := "c", absolute_start := 5000, absolute_end := 6000,
    transcript := "radio", confidence := none, words := none }

/-- C9 counterexample: querying `[0 s, 5 s]` returns the event whose
`absolute_start` is exactly 5000 ms, although the claimed half-open
interval `[start, end)` excludes it -- the source compares with
`start_dt <= event_start <= end_dt`, end inclusive. -/
theorem query_range_endpoint_cex :
    query_by_time_range [cexQueryEvent] 0 5 = [cexQueryEvent]
    ∧ ¬ (cexQueryEvent.absolute_start < 5 * 1000) := by decide

/-- C9 amended: the range query returns exactly the events whose
`absolute_start`, truncated to whole seconds, lies in the closed interval
from `start` to `end` (both endpoints inclusive), and it does so by
scanning the already-built event list (the result is a sublist of it, not a
rebuild). -/
theorem query_range_closed_truncated (events : List Event)
    (startSec endSec : Nat) :
    (∀ e : Event, e ∈ query_by_time_range events startSec endSec
        ↔ e ∈ events ∧ startSec ≤ e.absolute_start / 1000
            ∧ e.absolute_start / 1000 ≤ endSec)
    ∧ (query_by_time_range events startSec endSec).Sublist events := by
  refine ⟨?_, List.filter_sublist events⟩
  intro e
  simp [query_by_time_range, List.mem_filter]

end Spec2Proof
